import Mathlib

/-!
# Verification of `Dynamic_Multi-Way_Search_Implementation.py`

Shallow embedding of the repository's multi-way search over a sorted list.
Python `int` is modelled by `Int` (arbitrary precision, exact).  Array reads
`arr[i]` are modelled by a checked read returning `Option Int`: `none` marks
an access outside `[0, len)` (the embedding treats a negative index — which
Python would wrap around — as an error as well; the development proves such
reads never happen, so the two semantics agree on every reachable state).
`int(2 * math.log2 size)` is modelled exactly as `Nat.log 2 (size * size)`
(the real-valued floor of `2·log2 size`), and `int(i * (size / divisions))`
as Nat floor division `(i * size) / divisions` (the real-valued floor), per
the specification's formulas.
-/

/-- Checked array read: Python `arr[point]` where the development only ever
proves facts on indices in `[0, len)`; everything else is `none`. -/
def readZ (arr : List Int) (i : Int) : Option Int :=
  if 0 ≤ i then arr[i.toNat]? else none

/-- `calculate_divisions` (lines 16-31): `2` for sizes up to 10, else
`min (int (2 * log2 size)) 32`, with the floor modelled exactly as
`Nat.log 2 (size * size) = ⌊log2 (size²)⌋ = ⌊2·log2 size⌋`. -/
def calculate_divisions (size : Nat) : Nat :=
  if size ≤ 10 then 2 else min (Nat.log 2 (size * size)) 32

/-- `point = left + int(i * segment_size)` (lines 45-48 / 98-102), with
`segment_size = range_size / divisions` real-valued, so the computed point is
`left + ⌊i * range_size / divisions⌋`. -/
def divisionPoint (left : Int) (size divisions i : Nat) : Int :=
  left + (((i * size) / divisions : Nat) : Int)

/-- The division-point list built by `for i in range(1, divisions)`. -/
def divisionPoints (left : Int) (size divisions : Nat) : List Int :=
  (List.range' 1 (divisions - 1)).map (divisionPoint left size divisions)

/-- Division points of one narrowing step on the inclusive range
`(left, right)`, recursive form (lines 37-49): `range_size = right - left + 1`. -/
def stepPoints (left right : Int) : List Int :=
  divisionPoints left (right - left + 1).toNat
    (calculate_divisions (right - left + 1).toNat)

/-- Division points kept by the iterative form (lines 96-106): the iterative
loop `break`s at the first point with `point >= len(arr)`, so it keeps the
longest prefix of the recursive form's points below `len(arr)`.  The inline
divisions formula of lines 87-94 is the same expression as
`calculate_divisions`. -/
def iterPoints (arr : List Int) (left right : Int) : List Int :=
  (stepPoints left right).takeWhile (fun p => p < (arr.length : Int))

/-- The probing interleaved with point construction (lines 47-53 / 101-110):
scan the points in order; the first point whose element equals the target is
returned; a read outside `[0, len)` is an error (`none`). -/
def probeList (arr : List Int) (target : Int) : List Int → Option (Option Int)
  | [] => some none
  | p :: rest =>
    match readZ arr p with
    | none => none
    | some v => if v = target then some (some p) else probeList arr target rest

/-- Segment selection (lines 56-61 / 126-134): find the first division point
whose element exceeds the target; the next range runs from `lo` (the original
`left` for the first point, else the previous point plus one) to that point
minus one.  `some none` means no point's element exceeds the target. -/
def selectSegment (arr : List Int) (target lo : Int) :
    List Int → Option (Option (Int × Int))
  | [] => some none
  | p :: rest =>
    match readZ arr p with
    | none => none
    | some v =>
      if target < v then some (some (lo, p - 1))
      else selectSegment arr target (p + 1) rest

/-- Outcome of one body of the narrowing loop / one recursive call's
non-terminal work: an indexing error, a found index, or a narrowed range. -/
inductive StepResult where
  | err : StepResult
  | found : Int → StepResult
  | narrow : Int → Int → StepResult
deriving DecidableEq

/-- Shared tail of both forms once probing has failed on every point:
segment selection (lines 56-61 / 124-134), falling through to the last
segment `(points[-1] + 1, right)` (line 64 / 137-138); `division_points[-1]`
on an empty list would be a Python `IndexError`, modelled as `.err`. -/
def stepAfterProbe (arr : List Int) (target left right : Int)
    (pts : List Int) : StepResult :=
  match selectSegment arr target left pts with
  | none => .err
  | some (some lr) => .narrow lr.1 lr.2
  | some none =>
    match pts.getLast? with
    | none => .err
    | some pl => .narrow (pl + 1) right

/-- One step of `search_recursive` (lines 37-64), taken when `left ≤ right`. -/
def recBody (arr : List Int) (target left right : Int) : StepResult :=
  match probeList arr target (stepPoints left right) with
  | none => .err
  | some (some p) => .found p
  | some none => stepAfterProbe arr target left right (stepPoints left right)

/-- One iteration of the `while` body of the iterative form (lines 83-138):
probe the kept points; if the kept list is empty fall back to one binary
search step on `mid = (left + right) // 2` (Python floor division, lines
113-122); otherwise select a segment exactly as the recursive form does. -/
def iterBody (arr : List Int) (target left right : Int) : StepResult :=
  match probeList arr target (iterPoints arr left right) with
  | none => .err
  | some (some p) => .found p
  | some none =>
    if (iterPoints arr left right).isEmpty then
      match readZ arr ((left + right).fdiv 2) with
      | none => .err
      | some v =>
        if v = target then .found ((left + right).fdiv 2)
        else if target < v then .narrow left ((left + right).fdiv 2 - 1)
        else .narrow ((left + right).fdiv 2 + 1) right
    else stepAfterProbe arr target left right (iterPoints arr left right)

/-! ## Arithmetic facts about the division planner -/

lemma nat_div_add_div_le (a b d : Nat) : a / d + b / d ≤ (a + b) / d := by
  rcases Nat.eq_zero_or_pos d with hd | hd
  · subst hd; simp
  · rw [Nat.le_div_iff_mul_le hd, Nat.add_mul]
    exact Nat.add_le_add (Nat.div_mul_le_self a d) (Nat.div_mul_le_self b d)

lemma sq_lt_two_pow {s : Nat} (h : 5 ≤ s) : s * s < 2 ^ s := by
  induction s with
  | zero => omega
  | succ n ih =>
    rcases Nat.lt_or_ge n 5 with hn | hn
    · interval_cases n <;> omega
    · have h1 : n * n < 2 ^ n := ih hn
      have h2 : 2 * n + 1 ≤ n * n := by nlinarith
      have : (n + 1) * (n + 1) ≤ 2 * (n * n) := by nlinarith
      calc (n + 1) * (n + 1) ≤ 2 * (n * n) := this
        _ < 2 * 2 ^ n := by omega
        _ = 2 ^ (n + 1) := by rw [Nat.pow_succ]; ring

lemma log2_sq_ge_six {s : Nat} (h : 11 ≤ s) : 6 ≤ Nat.log 2 (s * s) := by
  have h64 : 2 ^ 6 ≤ s * s := by nlinarith
  exact (Nat.pow_le_iff_le_log (by norm_num) (by positivity)).mp h64

lemma log2_sq_lt_self {s : Nat} (h : 11  ≤ s) : Nat.log 2 (s * s) < s := by
  have hsq : s * s < 2 ^ s := sq_lt_two_pow (by omega)
  exact (Nat.lt_pow_iff_log_lt (by norm_num) (by positivity)).mp hsq

lemma calculate_divisions_ge_two (s : Nat) : 2 ≤ calculate_divisions s := by
  unfold calculate_divisions
  split
  · exact le_refl 2
  · have := log2_sq_ge_six (s := s) (by omega)
    omega

lemma calculate_divisions_le_32 (s : Nat) : calculate_divisions s ≤ 32 := by
  unfold calculate_divisions
  split
  · omega
  · exact min_le_right _ _

lemma calculate_divisions_le_self {s : Nat} (h : 11 ≤ s) :
    calculate_divisions s ≤ s := by
  unfold calculate_divisions
  split
  · omega
  · exact le_trans (min_le_left _ _) (le_of_lt (log2_sq_lt_self h))

/-! ## Facts about the division points of one narrowing step -/

lemma mem_divisionPoints {p : Int} {left : Int} {size d : Nat} :
    p ∈ divisionPoints left size d ↔
      ∃ i, 1 ≤ i ∧ i < d ∧ p = divisionPoint left size d i := by
  unfold divisionPoints
  simp only [List.mem_map, List.mem_range'_1]
  constructor
  · rintro ⟨i, ⟨h1, h2⟩, rfl⟩
    exact ⟨i, h1, by omega, rfl⟩
  · rintro ⟨i, h1, h2, rfl⟩
    exact ⟨i, ⟨h1, by omega⟩, rfl⟩

lemma divisionPoint_ge (left : Int) (size d i : Nat) :
    left ≤ divisionPoint left size d i :=
  le_add_of_nonneg_right (Int.natCast_nonneg _)

lemma divisionPoint_le {left : Int} {size d i : Nat}
    (hs : 1 ≤ size) (hd : 0 < d) (hi : i < d) :
    divisionPoint left size d i ≤ left + size - 1 := by
  have h1 : i * size ≤ (d - 1) * size := Nat.mul_le_mul_right size (by omega)
  have h2 : (d - 1) * size / d < size := by
    rw [Nat.div_lt_iff_lt_mul hd]
    obtain ⟨e, rfl⟩ : ∃ e, d = e + 1 := ⟨d - 1, by omega⟩
    rw [Nat.add_sub_cancel, Nat.mul_succ, Nat.mul_comm]
    exact Nat.lt_add_of_pos_right hs
  have h3 : i * size / d < size := lt_of_le_of_lt (Nat.div_le_div_right h1) h2
  unfold divisionPoint
  revert h3
  generalize i * size / d = k
  intro h3
  omega

lemma divisionPoints_length (left : Int) (size d : Nat) :
    (divisionPoints left size d).length = d - 1 := by
  unfold divisionPoints
  simp

lemma stepPoints_ne_nil (left right : Int) : stepPoints left right ≠ [] := by
  intro h
  have h2 := calculate_divisions_ge_two (right - left + 1).toNat
  have hlen := divisionPoints_length left (right - left + 1).toNat
    (calculate_divisions (right - left + 1).toNat)
  unfold stepPoints at h
  rw [h] at hlen
  simp at hlen
  omega

lemma stepPoints_bounds {left right : Int} (hlr : left ≤ right) :
    ∀ p ∈ stepPoints left right, left ≤ p ∧ p ≤ right := by
  intro p hp
  unfold stepPoints at hp
  rw [mem_divisionPoints] at hp
  obtain ⟨i, h1, h2, rfl⟩ := hp
  have hs : 1 ≤ (right - left + 1).toNat := by omega
  have hd : 0 < calculate_divisions (right - left + 1).toNat :=
    lt_of_lt_of_le (by norm_num) (calculate_divisions_ge_two _)
  refine ⟨divisionPoint_ge _ _ _ _, ?_⟩
  have := @divisionPoint_le left _ _ _ hs hd h2
  omega

lemma divisionPoint_strict_mono {left : Int} {size d i j : Nat}
    (hds : d ≤ size) (hd : 0 < d) (hij : i < j) :
    divisionPoint left size d i < divisionPoint left size d j := by
  unfold divisionPoint
  have key : i * size / d < j * size / d := by
    have h1 : i * size / d + size / d ≤ (i * size + size) / d :=
      nat_div_add_div_le _ _ _
    have h2 : 1 ≤ size / d := (Nat.one_le_div_iff hd).mpr hds
    have h3 : (i * size + size) / d ≤ j * size / d := by
      apply Nat.div_le_div_right
      have : (i + 1) * size ≤ j * size := Nat.mul_le_mul_right size (by omega)
      calc i * size + size = (i + 1) * size := by ring
        _ ≤ j * size := this
    omega
  omega

lemma stepPoints_pairwise (left right : Int) :
    (stepPoints left right).Pairwise (· < ·) := by
  unfold stepPoints divisionPoints
  set s := (right - left + 1).toNat with hs
  rcases le_or_lt s 10 with h10 | h10
  · have hd : calculate_divisions s = 2 := by unfold calculate_divisions; simp [h10]
    rw [hd]
    simp [List.range']
  · have hds : calculate_divisions s ≤ s := calculate_divisions_le_self (by omega)
    have hd : 0 < calculate_divisions s :=
      lt_of_lt_of_le (by norm_num) (calculate_divisions_ge_two _)
    rw [List.pairwise_map]
    apply List.Pairwise.imp_of_mem (R := (· < ·)) ?_ (List.pairwise_lt_range' _ _)
    intro a b _ _ hab
    exact divisionPoint_strict_mono hds hd hab

lemma iterPoints_sublist (arr : List Int) (left right : Int) :
    (iterPoints arr left right).Sublist (stepPoints left right) :=
  List.takeWhile_sublist _

lemma iterPoints_pairwise (arr : List Int) (left right : Int) :
    (iterPoints arr left right).Pairwise (· < ·) :=
  (stepPoints_pairwise left right).sublist (iterPoints_sublist arr left right)

lemma iterPoints_bounds {arr : List Int} {left right : Int} (hlr : left ≤ right) :
    ∀ p ∈ iterPoints arr left right, left ≤ p ∧ p ≤ right :=
  fun p hp => stepPoints_bounds hlr p ((iterPoints_sublist arr left right).mem hp)

/-! ## Checked-read lemmas -/

lemma readZ_bounds {arr : List Int} {i v : Int} (h : readZ arr i = some v) :
    0 ≤ i ∧ i < (arr.length : Int) := by
  unfold readZ at h
  split at h
  · rename_i h0
    obtain ⟨hn, _⟩ := List.getElem?_eq_some_iff.mp h
    omega
  · exact absurd h (by simp)

lemma readZ_get {arr : List Int} {i v : Int} (h : readZ arr i = some v) :
    ∃ hn : i.toNat < arr.length, arr[i.toNat] = v := by
  unfold readZ at h
  split at h
  · exact List.getElem?_eq_some_iff.mp h
  · exact absurd h (by simp)

lemma readZ_isSome {arr : List Int} {i : Int} (h0 : 0 ≤ i)
    (h1 : i < (arr.length : Int)) : ∃ v, readZ arr i = some v := by
  unfold readZ
  rw [if_pos h0]
  have hn : i.toNat < arr.length := by omega
  exact ⟨arr[i.toNat], List.getElem?_eq_getElem hn⟩

lemma readZ_mem {arr : List Int} {i v : Int} (h : readZ arr i = some v) :
    v ∈ arr := by
  obtain ⟨hn, hv⟩ := readZ_get h
  exact hv ▸ List.getElem_mem hn

lemma sorted_readZ_le {arr : List Int} (hs : arr.Pairwise (· ≤ ·))
    {a b va vb : Int} (ha : readZ arr a = some va) (hb : readZ arr b = some vb)
    (hab : a ≤ b) : va ≤ vb := by
  obtain ⟨ha0, _⟩ := readZ_bounds ha
  obtain ⟨han, hav⟩ := readZ_get ha
  obtain ⟨hbn, hbv⟩ := readZ_get hb
  rcases eq_or_lt_of_le hab with rfl | hlt
  · rw [hav] at hbv
    omega
  · have hij : a.toNat < b.toNat := by omega
    have := List.pairwise_iff_getElem.mp hs a.toNat b.toNat han hbn hij
    rw [hav, hbv] at this
    exact this

/-! ## Probing lemmas -/

lemma probeList_found {arr : List Int} {t p : Int} :
    ∀ {pts : List Int}, probeList arr t pts = some (some p) →
      p ∈ pts ∧ readZ arr p = some t := by
  intro pts
  induction pts with
  | nil => intro h; simp [probeList] at h
  | cons q rest ih =>
    intro h
    unfold probeList at h
    split at h
    · simp at h
    · rename_i v hq
      split at h
      · rename_i hv
        simp at h
        subst h
        exact ⟨List.mem_cons_self _ _, hv ▸ hq⟩
      · obtain ⟨hm, hr⟩ := ih h
        exact ⟨List.mem_cons_of_mem _ hm, hr⟩

lemma probeList_none_vals {arr : List Int} {t : Int} :
    ∀ {pts : List Int}, probeList arr t pts = some none →
      ∀ p ∈ pts, ∃ v, readZ arr p = some v ∧ v ≠ t := by
  intro pts
  induction pts with
  | nil => intro _ p hp; simp at hp
  | cons q rest ih =>
    intro h p hp
    unfold probeList at h
    split at h
    · simp at h
    · rename_i v hq
      split at h
      · simp at h
      · rename_i hv
        rcases List.mem_cons.mp hp with rfl | hp'
        · exact ⟨v, hq, hv⟩
        · exact ih h p hp'

lemma probeList_ne_none {arr : List Int} {t : Int} :
    ∀ {pts : List Int}, (∀ p ∈ pts, ∃ v, readZ arr p = some v) →
      probeList arr t pts ≠ none := by
  intro pts
  induction pts with
  | nil => intro _ h; simp [probeList] at h
  | cons q rest ih =>
    intro hall h
    unfold probeList at h
    split at h
    · rename_i hq
      obtain ⟨v, hv⟩ := hall q (List.mem_cons_self _ _)
      rw [hq] at hv
      exact absurd hv (by simp)
    · split at h
      · simp at h
      · exact ih (fun p hp => hall p (List.mem_cons_of_mem _ hp)) h

/-! ## Segment-selection lemmas -/

lemma selectSegment_narrow_bounds {arr : List Int} {t right : Int} :
    ∀ (pts : List Int) (lo l' r' : Int), pts.Pairwise (· < ·) →
      (∀ p ∈ pts, lo ≤ p ∧ p ≤ right) →
      selectSegment arr t lo pts = some (some (l', r')) →
      lo ≤ l' ∧ l' ≤ r' + 1 ∧ r' ≤ right - 1 := by
  intro pts
  induction pts with
  | nil => intro lo l' r' _ _ h; simp [selectSegment] at h
  | cons q rest ih =>
    intro lo l' r' hpw hb h
    unfold selectSegment at h
    split at h
    · simp at h
    · rename_i v hq
      split at h
      · rename_i hv
        simp only [Option.some.injEq, Prod.mk.injEq] at h
        obtain ⟨rfl, rfl⟩ := h
        have hbq := hb q (List.mem_cons_self _ _)
        exact ⟨le_refl _, by omega, by omega⟩
      · have hpw' := List.pairwise_cons.mp hpw
        have hb' : ∀ p ∈ rest, q + 1 ≤ p ∧ p ≤ right := by
          intro p hp
          have h1 := hpw'.1 p hp
          have h2 := hb p (List.mem_cons_of_mem _ hp)
          omega
        obtain ⟨h1, h2, h3⟩ := ih (q + 1) l' r' hpw'.2 hb' h
        have hbq := hb q (List.mem_cons_self _ _)
        exact ⟨by omega, h2, h3⟩

lemma selectSegment_narrow_vals {arr : List Int} {t : Int} :
    ∀ (pts : List Int) (lo l' r' : Int),
      selectSegment arr t lo pts = some (some (l', r')) →
      (∃ p ∈ pts, ∃ v, readZ arr p = some v ∧ t < v ∧ r' = p - 1) ∧
        (l' = lo ∨ ∃ q ∈ pts, ∃ w, readZ arr q = some w ∧ w ≤ t ∧ l' = q + 1) := by
  intro pts
  induction pts with
  | nil => intro lo l' r' h; simp [selectSegment] at h
  | cons q rest ih =>
    intro lo l' r' h
    unfold selectSegment at h
    split at h
    · simp at h
    · rename_i v hq
      split at h
      · rename_i hv
        simp only [Option.some.injEq, Prod.mk.injEq] at h
        obtain ⟨rfl, rfl⟩ := h
        exact ⟨⟨q, List.mem_cons_self _ _, v, hq, hv, rfl⟩, Or.inl rfl⟩
      · rename_i hv
        obtain ⟨⟨p, hp, w, hw, htw, hr⟩, hl⟩ := ih (q + 1) l' r' h
        refine ⟨⟨p, List.mem_cons_of_mem _ hp, w, hw, htw, hr⟩, ?_⟩
        rcases hl with rfl | ⟨q', hq', w', hw', hwt', hl'⟩
        · exact Or.inr ⟨q, List.mem_cons_self _ _, v, hq, not_lt.mp hv, rfl⟩
        · exact Or.inr ⟨q', List.mem_cons_of_mem _ hq', w', hw', hwt', hl'⟩

lemma selectSegment_none_vals {arr : List Int} {t : Int} :
    ∀ (pts : List Int) (lo : Int), selectSegment arr t lo pts = some none →
      ∀ p ∈ pts, ∃ v, readZ arr p = some v ∧ v ≤ t := by
  intro pts
  induction pts with
  | nil => intro lo _ p hp; simp at hp
  | cons q rest ih =>
    intro lo h p hp
    unfold selectSegment at h
    split at h
    · simp at h
    · rename_i v hq
      split at h
      · simp at h
      · rename_i hv
        rcases List.mem_cons.mp hp with rfl | hp'
        · exact ⟨v, hq, not_lt.mp hv⟩
        · exact ih (q + 1) h p hp'

lemma selectSegment_ne_none {arr : List Int} {t : Int} :
    ∀ (pts : List Int) (lo : Int),
      (∀ p ∈ pts, ∃ v, readZ arr p = some v) →
      selectSegment arr t lo pts ≠ none := by
  intro pts
  induction pts with
  | nil => intro lo _ h; simp [selectSegment] at h
  | cons q rest ih =>
    intro lo hall h
    unfold selectSegment at h
    split at h
    · rename_i hq
      obtain ⟨v, hv⟩ := hall q (List.mem_cons_self _ _)
      rw [hq] at hv
      exact absurd hv (by simp)
    · split at h
      · simp at h
      · exact ih (q + 1) (fun p hp => hall p (List.mem_cons_of_mem _ hp)) h

/-! ## Step-body lemmas -/

lemma fdiv2_bounds {l r : Int} (h : l ≤ r) :
    l ≤ (l + r).fdiv 2 ∧ (l + r).fdiv 2 ≤ r := by
  have h1 := Int.fdiv_add_fmod (l + r) 2
  have h2 := Int.fmod_nonneg' (l + r) (by norm_num : (0:Int) < 2)
  have h3 := Int.fmod_lt_of_pos (l + r) (by norm_num : (0:Int) < 2)
  omega

lemma stepAfterProbe_narrow_bounds {arr : List Int} {t left right l' r' : Int}
    {pts : List Int} (hpw : pts.Pairwise (· < ·))
    (hb : ∀ p ∈ pts, left ≤ p ∧ p ≤ right)
    (h : stepAfterProbe arr t left right pts = .narrow l' r') :
    left ≤ l' ∧ l' ≤ r' + 1 ∧ r' ≤ right ∧ r' - l' + 1 ≤ right - left := by
  unfold stepAfterProbe at h
  split at h
  · simp at h
  · rename_i lr hsel
    obtain ⟨a, b⟩ := lr
    injection h with h1 h2
    subst h1
    subst h2
    obtain ⟨g1, g2, g3⟩ := selectSegment_narrow_bounds pts left _ _ hpw hb hsel
    exact ⟨g1, g2, by omega, by omega⟩
  · split at h
    · simp at h
    · rename_i pl hlast
      injection h with h1 h2
      subst h1
      subst h2
      have hpl := List.mem_of_getLast?_eq_some hlast
      have := hb pl hpl
      exact ⟨by omega, by omega, le_refl _, by omega⟩

lemma stepAfterProbe_ne_found {arr : List Int} {t left right p : Int}
    {pts : List Int} : stepAfterProbe arr t left right pts ≠ .found p := by
  intro h
  unfold stepAfterProbe at h
  split at h
  · simp at h
  · simp at h
  · split at h
    · simp at h
    · simp at h

lemma stepAfterProbe_ne_err {arr : List Int} {t left right : Int}
    {pts : List Int} (hall : ∀ p ∈ pts, ∃ v, readZ arr p = some v)
    (hne : pts ≠ []) : stepAfterProbe arr t left right pts ≠ .err := by
  intro h
  unfold stepAfterProbe at h
  split at h
  · rename_i hsel
    exact selectSegment_ne_none pts left hall hsel
  · simp at h
  · split at h
    · rename_i hlast
      exact hne (List.getLast?_eq_none_iff.mp hlast)
    · simp at h

lemma recBody_narrow {arr : List Int} {t left right l' r' : Int}
    (hlr : left ≤ right) (h : recBody arr t left right = .narrow l' r') :
    left ≤ l' ∧ l' ≤ r' + 1 ∧ r' ≤ right ∧
      (r' - l' + 1).toNat < (right - left + 1).toNat := by
  unfold recBody at h
  split at h
  · simp at h
  · simp at h
  · obtain ⟨g1, g2, g3, g4⟩ := stepAfterProbe_narrow_bounds
      (stepPoints_pairwise left right) (stepPoints_bounds hlr) h
    exact ⟨g1, g2, g3, by omega⟩

lemma iterBody_narrow {arr : List Int} {t left right l' r' : Int}
    (hlr : left ≤ right) (h : iterBody arr t left right = .narrow l' r') :
    left ≤ l' ∧ l' ≤ r' + 1 ∧ r' ≤ right ∧
      (r' - l' + 1).toNat < (right - left + 1).toNat := by
  unfold iterBody at h
  split at h
  · simp at h
  · simp at h
  · split at h
    · -- binary-search fallback on the midpoint
      obtain ⟨hm1, hm2⟩ := fdiv2_bounds hlr
      split at h
      · simp at h
      · rename_i v hv
        split at h
        · simp at h
        · split at h
          · injection h with h1 h2
            subst h1
            subst h2
            exact ⟨le_refl _, by omega, by omega, by omega⟩
          · injection h with h1 h2
            subst h1
            subst h2
            exact ⟨by omega, by omega, le_refl _, by omega⟩
    · obtain ⟨g1, g2, g3, g4⟩ := stepAfterProbe_narrow_bounds
        (iterPoints_pairwise arr left right) (iterPoints_bounds hlr) h
      exact ⟨g1, g2, g3, by omega⟩

lemma recBody_found {arr : List Int} {t left right p : Int}
    (h : recBody arr t left right = .found p) : readZ arr p = some t := by
  unfold recBody at h
  split at h
  · simp at h
  · rename_i q hq
    injection h with h1
    subst h1
    exact (probeList_found hq).2
  · exact absurd h stepAfterProbe_ne_found

lemma iterBody_found {arr : List Int} {t left right p : Int}
    (h : iterBody arr t left right = .found p) : readZ arr p = some t := by
  unfold iterBody at h
  split at h
  · simp at h
  · rename_i q hq
    injection h with h1
    subst h1
    exact (probeList_found hq).2
  · split at h
    · split at h
      · simp at h
      · rename_i v hv
        split at h
        · rename_i hvt
          injection h with h1
          subst h1
          exact hvt ▸ hv
        · split at h
          · simp at h
          · simp at h
    · exact absurd h stepAfterProbe_ne_found

lemma recBody_ne_err {arr : List Int} {t left right : Int} (hlr : left ≤ right)
    (h0 : 0 ≤ left) (hlen : right < (arr.length : Int)) :
    recBody arr t left right ≠ .err := by
  have hall : ∀ p ∈ stepPoints left right, ∃ v, readZ arr p = some v := by
    intro p hp
    obtain ⟨hp1, hp2⟩ := stepPoints_bounds hlr p hp
    exact readZ_isSome (by omega) (by omega)
  intro h
  unfold recBody at h
  split at h
  · rename_i hpb
    exact probeList_ne_none hall hpb
  · simp at h
  · exact stepAfterProbe_ne_err hall (stepPoints_ne_nil left right) h

lemma iterBody_ne_err {arr : List Int} {t left right : Int} (hlr : left ≤ right)
    (h0 : 0 ≤ left) (hlen : right < (arr.length : Int)) :
    iterBody arr t left right ≠ .err := by
  have hall : ∀ p ∈ iterPoints arr left right, ∃ v, readZ arr p = some v := by
    intro p hp
    obtain ⟨hp1, hp2⟩ := iterPoints_bounds hlr p hp
    exact readZ_isSome (by omega) (by omega)
  intro h
  unfold iterBody at h
  split at h
  · rename_i hpb
    exact probeList_ne_none hall hpb
  · simp at h
  · split at h
    · obtain ⟨hm1, hm2⟩ := fdiv2_bounds hlr
      obtain ⟨v, hv⟩ := @readZ_isSome arr ((left + right).fdiv 2)
        (by omega) (by omega)
      split at h
      · rename_i hmid
        rw [hmid] at hv
        exact absurd hv (by simp)
      · split at h
        · simp at h
        · split at h
          · simp at h
          · simp at h
    · rename_i hE
      have hne : iterPoints arr left right ≠ [] := by
        intro hnil
        rw [hnil] at hE
        simp at hE
      exact stepAfterProbe_ne_err hall hne h

lemma recBody_narrow_cases {arr : List Int} {t left right l' r' : Int}
    (h : recBody arr t left right = .narrow l' r') :
    (∀ p ∈ stepPoints left right, ∃ v, readZ arr p = some v ∧ v ≠ t) ∧
      ((∃ p ∈ stepPoints left right, ∃ v,
            readZ arr p = some v ∧ t < v ∧ r' = p - 1) ∧
          (l' = left ∨ ∃ q ∈ stepPoints left right, ∃ w,
            readZ arr q = some w ∧ w ≤ t ∧ l' = q + 1) ∨
        (∀ p ∈ stepPoints left right, ∃ v, readZ arr p = some v ∧ v ≤ t) ∧
          r' = right ∧
          ∃ pl, (stepPoints left right).getLast? = some pl ∧ l' = pl + 1) := by
  unfold recBody at h
  split at h
  · simp at h
  · simp at h
  · rename_i hpb
    refine ⟨probeList_none_vals hpb, ?_⟩
    unfold stepAfterProbe at h
    split at h
    · simp at h
    · rename_i lr hsel
      obtain ⟨a, b⟩ := lr
      injection h with h1 h2
      subst h1
      subst h2
      obtain ⟨hfirst, hsecond⟩ := selectSegment_narrow_vals _ left _ _ hsel
      exact Or.inl ⟨hfirst, hsecond⟩
    · rename_i hsel
      split at h
      · simp at h
      · rename_i pl hlast
        injection h with h1 h2
        subst h1
        subst h2
        exact Or.inr ⟨selectSegment_none_vals _ left hsel, rfl, pl, hlast, rfl⟩

lemma iterPoints_eq_stepPoints {arr : List Int} {left right : Int}
    (hlr : left ≤ right) (hlen : right < (arr.length : Int)) :
    iterPoints arr left right = stepPoints left right := by
  unfold iterPoints
  rw [List.takeWhile_eq_self_iff]
  intro x hx
  have := stepPoints_bounds hlr x hx
  simp only [decide_eq_true_eq]
  omega

lemma iterBody_eq_recBody {arr : List Int} {t left right : Int}
    (hlr : left ≤ right) (hlen : right < (arr.length : Int)) :
    iterBody arr t left right = recBody arr t left right := by
  unfold iterBody recBody
  rw [iterPoints_eq_stepPoints hlr hlen]
  have hne : (stepPoints left right).isEmpty = false :=
    List.isEmpty_eq_false.mpr (stepPoints_ne_nil left right)
  cases hpb : probeList arr t (stepPoints left right) with
  | none => rfl
  | some o =>
    cases o with
    | none => simp [hne]
    | some p => rfl

/-! ## The two search functions -/

/-- `search_recursive` (lines 33-66): `some r` is a normal Python return
(`r = -1` meaning not found), `none` an out-of-range read. -/
def search_recursive (arr : List Int) (target : Int) (left right : Int) :
    Option Int :=
  if left > right then some (-1)
  else
    match hb : recBody arr target left right with
    | .err => none
    | .found p => some p
    | .narrow l' r' => search_recursive arr target l' r'
termination_by (right - left + 1).toNat
decreasing_by
  exact (recBody_narrow (by omega) hb).2.2.2

/-- The `while left <= right` loop of the iterative form (lines 80-140). -/
def iterLoop (arr : List Int) (target : Int) (left right : Int) : Option Int :=
  if left > right then some (-1)
  else
    match hb : iterBody arr target left right with
    | .err => none
    | .found p => some p
    | .narrow l' r' => iterLoop arr target l' r'
termination_by (right - left + 1).toNat
decreasing_by
  exact (iterBody_narrow (by omega) hb).2.2.2

/-- `dynamic_multi_way_search` (lines 5-66): run the recursive searcher on
the initial range `(0, len(arr) - 1)`. -/
def dynamic_multi_way_search (arr : List Int) (target : Int) : Option Int :=
  search_recursive arr target 0 ((arr.length : Int) - 1)

/-- `dynamic_multi_way_search_iterative` (lines 69-140). -/
def dynamic_multi_way_search_iterative (arr : List Int) (target : Int) :
    Option Int :=
  iterLoop arr target 0 ((arr.length : Int) - 1)

/-! ## Master lemmas about whole searches -/

lemma search_recursive_safe {arr : List Int} {t : Int} :
    ∀ n : Nat, ∀ {left right : Int}, (right - left + 1).toNat ≤ n → 0 ≤ left →
      right < (arr.length : Int) →
      ∃ res, search_recursive arr t left right = some res ∧
        (res = -1 ∨ readZ arr res = some t) := by
  intro n
  induction n with
  | zero =>
    intro left right hn h0 hlen
    have hlr : left > right := by omega
    refine ⟨-1, ?_, Or.inl rfl⟩
    rw [search_recursive, if_pos hlr]
  | succ n ih =>
    intro left right hn h0 hlen
    by_cases hlr : left > right
    · refine ⟨-1, ?_, Or.inl rfl⟩
      rw [search_recursive, if_pos hlr]
    · rw [search_recursive, if_neg hlr]
      split
      · rename_i hb
        exact absurd hb (recBody_ne_err (by omega) h0 hlen)
      · rename_i p hb
        exact ⟨p, rfl, Or.inr (recBody_found hb)⟩
      · rename_i l' r' hb
        obtain ⟨g1, g2, g3, g4⟩ := recBody_narrow (by omega) hb
        exact ih (by omega) (by omega) (by omega)

lemma iterLoop_eq_search_recursive {arr : List Int} {t : Int} :
    ∀ n : Nat, ∀ {left right : Int}, (right - left + 1).toNat ≤ n → 0 ≤ left →
      right < (arr.length : Int) →
      iterLoop arr t left right = search_recursive arr t left right := by
  intro n
  induction n with
  | zero =>
    intro left right hn h0 hlen
    have hlr : left > right := by omega
    rw [iterLoop, search_recursive, if_pos hlr, if_pos hlr]
  | succ n ih =>
    intro left right hn h0 hlen
    by_cases hlr : left > right
    · rw [iterLoop, search_recursive, if_pos hlr, if_pos hlr]
    · rw [iterLoop, search_recursive, if_neg hlr, if_neg hlr]
      rw [iterBody_eq_recBody (t := t) (by omega) hlen]
      cases hb : recBody arr t left right with
      | err => rfl
      | found p => rfl
      | narrow l' r' =>
        obtain ⟨g1, g2, g3, g4⟩ := recBody_narrow (by omega) hb
        exact ih (by omega) (by omega) (by omega)

lemma search_recursive_present {arr : List Int} {t : Int}
    (hs : arr.Pairwise (· ≤ ·)) :
    ∀ n : Nat, ∀ {left right : Int}, (right - left + 1).toNat ≤ n → 0 ≤ left →
      right < (arr.length : Int) →
      (∃ k : Int, left ≤ k ∧ k ≤ right ∧ readZ arr k = some t) →
      ∃ res, search_recursive arr t left right = some res ∧
        readZ arr res = some t := by
  intro n
  induction n with
  | zero =>
    intro left right hn h0 hlen hk
    obtain ⟨k, hk1, hk2, _⟩ := hk
    omega
  | succ n ih =>
    intro left right hn h0 hlen hk
    obtain ⟨k, hk1, hk2, hk3⟩ := hk
    have hlr : ¬ left > right := by omega
    rw [search_recursive, if_neg hlr]
    split
    · rename_i hb
      exact absurd hb (recBody_ne_err (by omega) h0 hlen)
    · rename_i p hb
      exact ⟨p, rfl, recBody_found hb⟩
    · rename_i l' r' hb
      obtain ⟨g1, g2, g3, g4⟩ := recBody_narrow (by omega) hb
      obtain ⟨hprobe, hcases⟩ := recBody_narrow_cases hb
      have hk' : l' ≤ k ∧ k ≤ r' := by
        rcases hcases with ⟨⟨p, hp, v, hv, htv, hr⟩, hsecond⟩ |
          ⟨hall, hr, pl, hlast, hl⟩
        · constructor
          · rcases hsecond with rfl | ⟨q, hq, w, hw, hwt, hl⟩
            · exact hk1
            · subst hl
              obtain ⟨w', hw', hwne⟩ := hprobe q hq
              injection hw.symm.trans hw' with hww
              by_contra hh
              have hkq : k ≤ q := by omega
              have := sorted_readZ_le hs hk3 hw hkq
              omega
          · subst hr
            by_contra hh
            have hpk : p ≤ k := by omega
            have := sorted_readZ_le hs hv hk3 hpk
            omega
        · subst hr
          refine ⟨?_, hk2⟩
          subst hl
          have hplm := List.mem_of_getLast?_eq_some hlast
          obtain ⟨v, hv, hvle⟩ := hall pl hplm
          obtain ⟨v', hv', hvne⟩ := hprobe pl hplm
          injection hv.symm.trans hv' with hvv
          by_contra hh
          have hkpl : k ≤ pl := by omega
          have := sorted_readZ_le hs hk3 hv hkpl
          omega
      exact ih (by omega) (by omega) (by omega) ⟨k, hk'.1, hk'.2, hk3⟩

/-! ## Top-level wrappers -/

lemma readZ_to_getElem {arr : List Int} {res t : Int}
    (h : readZ arr res = some t) :
    ∃ i : Nat, (i : Int) = res ∧ i < arr.length ∧ arr[i]? = some t := by
  obtain ⟨h0, _⟩ := readZ_bounds h
  obtain ⟨hn, hv⟩ := readZ_get h
  exact ⟨res.toNat, by omega, hn, by rw [List.getElem?_eq_getElem hn, hv]⟩

lemma mem_to_readZ {arr : List Int} {t : Int} (h : t ∈ arr) :
    ∃ k : Int, 0 ≤ k ∧ k ≤ (arr.length : Int) - 1 ∧ readZ arr k = some t := by
  obtain ⟨n, hn, hv⟩ := List.mem_iff_getElem.mp h
  refine ⟨(n : Int), by omega, by omega, ?_⟩
  unfold readZ
  rw [if_pos (by omega)]
  rw [Int.toNat_natCast, List.getElem?_eq_getElem hn, hv]

lemma dyn_safe (arr : List Int) (t : Int) :
    ∃ res, dynamic_multi_way_search arr t = some res ∧
      (res = -1 ∨ readZ arr res = some t) := by
  unfold dynamic_multi_way_search
  exact search_recursive_safe _ (le_refl _) (by omega) (by omega)

lemma dyn_eq_iter (arr : List Int) (t : Int) :
    dynamic_multi_way_search_iterative arr t = dynamic_multi_way_search arr t := by
  unfold dynamic_multi_way_search dynamic_multi_way_search_iterative
  exact iterLoop_eq_search_recursive _ (le_refl _) (by omega) (by omega)

lemma dyn_present {arr : List Int} {t : Int} (hs : arr.Pairwise (· ≤ ·))
    (hk : ∃ k : Int, 0 ≤ k ∧ k ≤ (arr.length : Int) - 1 ∧
      readZ arr k = some t) :
    ∃ res, dynamic_multi_way_search arr t = some res ∧
      readZ arr res = some t := by
  unfold dynamic_multi_way_search
  exact search_recursive_present hs _ (le_refl _) (by omega) (by omega) hk

lemma dyn_absent {arr : List Int} {t : Int} (ht : t ∉ arr) :
    dynamic_multi_way_search arr t = some (-1) ∧
      dynamic_multi_way_search_iterative arr t = some (-1) := by
  obtain ⟨res, hres, hval⟩ := dyn_safe arr t
  have hres1 : res = -1 := by
    rcases hval with rfl | hrv
    · rfl
    · exact absurd (readZ_mem hrv) ht
  subst hres1
  exact ⟨hres, by rw [dyn_eq_iter]; exact hres⟩

/-! ## Claim theorems -/

/-- C1: for every ascending-sorted array and every target value that occurs
in it, both `dynamic_multi_way_search` and `dynamic_multi_way_search_iterative`
return one and the same index `i` with `0 ≤ i < len(arr)` and
`arr[i] = target`; when the array's elements are distinct, `i` is the unique
index of the target. -/
theorem spec_c1_present_found (arr : List Int) (t : Int)
    (hs : arr.Pairwise (· ≤ ·)) (ht : t ∈ arr) :
    ∃ i : Nat, i < arr.length ∧ arr[i]? = some t ∧
      dynamic_multi_way_search arr t = some (i : Int) ∧
      dynamic_multi_way_search_iterative arr t = some (i : Int) ∧
      (arr.Nodup → ∀ j : Nat, j < arr.length → arr[j]? = some t → j = i) := by
  obtain ⟨res, hres, hval⟩ := dyn_present hs (mem_to_readZ ht)
  obtain ⟨i, hieq, hilen, hiv⟩ := readZ_to_getElem hval
  subst hieq
  refine ⟨i, hilen, hiv, hres, by rw [dyn_eq_iter]; exact hres, ?_⟩
  intro hnd j hj hjv
  obtain ⟨hi', hiv'⟩ := List.getElem?_eq_some_iff.mp hiv
  obtain ⟨hj', hjv'⟩ := List.getElem?_eq_some_iff.mp hjv
  exact (hnd.getElem_inj_iff).mp (hjv'.trans hiv'.symm)

/-- C2: for every ascending-sorted array and every target value that does
not occur in it, both `dynamic_multi_way_search` and
`dynamic_multi_way_search_iterative` return the NotFound sentinel `-1`. -/
theorem spec_c2_absent_notfound (arr : List Int) (t : Int)
    (hs : arr.Pairwise (· ≤ ·)) (ht : t ∉ arr) :
    dynamic_multi_way_search arr t = some (-1) ∧
      dynamic_multi_way_search_iterative arr t = some (-1) :=
  dyn_absent ht

/-- C3: on every input pair, `dynamic_multi_way_search` and
`dynamic_multi_way_search_iterative` return identical results: they agree on
found-vs-not-found and, when found, on the index. -/
theorem spec_c3_equivalence (arr : List Int) (t : Int) :
    dynamic_multi_way_search_iterative arr t = dynamic_multi_way_search arr t :=
  dyn_eq_iter arr t

/-- C4: for every input array (including empty, single-element, and
duplicate-valued arrays) and every target, neither search raises an
exception or reads an index outside `[0, len(arr) - 1]` (both runs end in a
`some` result of the checked semantics, in which any such read is `none`),
and the only observable outcomes are a valid index of the target or `-1`. -/
theorem spec_c4_safety (arr : List Int) (t : Int) :
    ∃ r, dynamic_multi_way_search arr t = some r ∧
      dynamic_multi_way_search_iterative arr t = some r ∧
      (r = -1 ∨ ∃ i : Nat, (i : Int) = r ∧ i < arr.length ∧
        arr[i]? = some t) := by
  obtain ⟨res, hres, hval⟩ := dyn_safe arr t
  refine ⟨res, hres, by rw [dyn_eq_iter]; exact hres, ?_⟩
  rcases hval with rfl | hv
  · exact Or.inl rfl
  · exact Or.inr (readZ_to_getElem hv)

/-- C7: the empty array yields `-1` for every target; a single-element array
`[x]` yields index `0` when searching for `x` and `-1` for any other
target, in both forms. -/
theorem spec_c7_boundary (t x : Int) :
    (dynamic_multi_way_search [] t = some (-1) ∧
      dynamic_multi_way_search_iterative [] t = some (-1)) ∧
    (dynamic_multi_way_search [x] x = some 0 ∧
      dynamic_multi_way_search_iterative [x] x = some 0) ∧
    (t ≠ x → dynamic_multi_way_search [x] t = some (-1) ∧
      dynamic_multi_way_search_iterative [x] t = some (-1)) := by
  refine ⟨⟨?_, ?_⟩, ?_, ?_⟩
  · unfold dynamic_multi_way_search
    rw [search_recursive, if_pos (by simp)]
  · unfold dynamic_multi_way_search_iterative
    rw [iterLoop, if_pos (by simp)]
  · have hx : readZ [x] 0 = some x := by
      unfold readZ
      rw [if_pos (le_refl 0)]
      rfl
    obtain ⟨res, hres, hval⟩ := @dyn_present [x] x
      (by simp) ⟨0, le_refl 0, by simp, hx⟩
    have hres0 : res = 0 := by
      have hb := readZ_bounds hval
      simp only [List.length_singleton] at hb
      omega
    subst hres0
    exact ⟨hres, by rw [dyn_eq_iter]; exact hres⟩
  · intro hne
    exact dyn_absent (by simp [hne])

/-- C5: each narrowing step of either form, taken on a non-empty range,
selects a strict sub-interval: the new range size `r' - l' + 1` is strictly
below the old size `right - left + 1`, so the recursion depth and the loop
iteration count are finite. -/
theorem spec_c5_termination (arr : List Int) (t left right l' r' : Int)
    (hlr : left ≤ right) :
    (recBody arr t left right = .narrow l' r' →
      (r' - l' + 1).toNat < (right - left + 1).toNat) ∧
    (iterBody arr t left right = .narrow l' r' →
      (r' - l' + 1).toNat < (right - left + 1).toNat) :=
  ⟨fun h => (recBody_narrow hlr h).2.2.2,
    fun h => (iterBody_narrow hlr h).2.2.2⟩

/-- C5 witness: on `arr = [0,1,2,3]`, `target = 3`, the step on `(0, 3)`
narrows to `(3, 3)`, and the size drops from 4 to 1. -/
theorem spec_c5_witness :
    ((3:Int) - 3 + 1).toNat < ((3:Int) - 0 + 1).toNat :=
  (spec_c5_termination [0, 1, 2, 3] 3 0 3 3 3 (by decide)).1 (by decide)

/-- C6: for every `range_size ≥ 1` the division planner returns exactly 2
when `range_size ≤ 10`, and `min (max ⌊2·log2 range_size⌋ 2) 32` when
`range_size > 10` (with the real floor `⌊2·log2 s⌋` written exactly as
`Nat.log 2 (s·s)`); in particular the returned division count always lies
in the closed interval `[2, 32]`. -/
theorem spec_c6_planner (s : Nat) (h : 1 ≤ s) :
    calculate_divisions s =
        (if s ≤ 10 then 2 else min (max (Nat.log 2 (s * s)) 2) 32) ∧
      2 ≤ calculate_divisions s ∧ calculate_divisions s ≤ 32 := by
  refine ⟨?_, calculate_divisions_ge_two s, calculate_divisions_le_32 s⟩
  unfold calculate_divisions
  split
  · rfl
  · rename_i h10
    have h6 := log2_sq_ge_six (s := s) (by omega)
    rw [max_eq_left (by omega)]

/-- C6 witness at `range_size = 12`. -/
theorem spec_c6_witness :
    calculate_divisions 12 =
        (if 12 ≤ 10 then 2 else min (max (Nat.log 2 (12 * 12)) 2) 32) ∧
      2 ≤ calculate_divisions 12 ∧ calculate_divisions 12 ≤ 32 :=
  spec_c6_planner 12 (by decide)

/-- C7: the empty array yields `-1` for every target; a single-element
array `[x]` yields index `0` when searching for `x` and `-1` for any other
target, in both forms. -/
theorem spec_c7_witness :
    dynamic_multi_way_search [7] 5 = some (-1) ∧
      dynamic_multi_way_search_iterative [7] 5 = some (-1) :=
  (spec_c7_boundary 5 7).2.2 (by decide)

/-- C8 counterexample: at the narrowing step on the non-empty range
`(0, 1)` — the initial step of either form on a 2-element array — the
single computed division point is `1`, which equals `right`, so the
computed points do not lie strictly inside the range as the claim states. -/
theorem spec_c8_counterexample :
    ¬ (∀ p ∈ stepPoints 0 1, (0 : Int) < p ∧ p < 1) := by
  intro h
  have h1 : (1 : Int) ∈ stepPoints 0 1 := by decide
  exact absurd (h 1 h1).2 (by decide)

/-- C8 (amended): at every narrowing step on a non-empty range
`(left, right)`, in both forms, the computed division-point list is
strictly increasing and every computed point `p` satisfies
`left ≤ p ≤ right` — inclusive bounds: a point may coincide with an
endpoint of the range. -/
theorem spec_c8_amended (arr : List Int) (left right : Int)
    (hlr : left ≤ right) :
    (stepPoints left right).Pairwise (· < ·) ∧
      (∀ p ∈ stepPoints left right, left ≤ p ∧ p ≤ right) ∧
      (iterPoints arr left right).Pairwise (· < ·) ∧
      ∀ p ∈ iterPoints arr left right, left ≤ p ∧ p ≤ right :=
  ⟨stepPoints_pairwise left right, stepPoints_bounds hlr,
    iterPoints_pairwise arr left right, iterPoints_bounds hlr⟩

/-- C8 witness on the range `(0, 1)` of a 2-element array. -/
theorem spec_c8_witness :
    (stepPoints 0 1).Pairwise (· < ·) ∧
      (∀ p ∈ stepPoints 0 1, (0:Int) ≤ p ∧ p ≤ 1) ∧
      (iterPoints [0, 1] 0 1).Pairwise (· < ·) ∧
      ∀ p ∈ iterPoints [0, 1] 0 1, (0:Int) ≤ p ∧ p ≤ 1 :=
  spec_c8_amended [0, 1] 0 1 (by decide)

/-- C9: the SearchRange invariant `left ≤ right + 1` holds at all times: it
holds for the initial range `(0, len(arr) - 1)`, and every recursive call
and every loop reassignment — always taken from a state with
`left ≤ right` — produces a range `(l', r')` with `l' ≤ r' + 1`. -/
theorem spec_c9_invariant (arr : List Int) (t left right l' r' : Int)
    (hlr : left ≤ right) :
    (0 : Int) ≤ ((arr.length : Int) - 1) + 1 ∧
      (recBody arr t left right = .narrow l' r' → l' ≤ r' + 1) ∧
      (iterBody arr t left right = .narrow l' r' → l' ≤ r' + 1) :=
  ⟨by omega, fun h => (recBody_narrow hlr h).2.1,
    fun h => (iterBody_narrow hlr h).2.1⟩

/-- C9 witness: the step of `[0,1,2,3]`, target 3, on `(0, 3)` narrows to
`(3, 3)`, and `3 ≤ 3 + 1`. -/
theorem spec_c9_witness : (3:Int) ≤ 3 + 1 :=
  (spec_c9_invariant [0, 1, 2, 3] 3 0 3 3 3 (by decide)).2.1 (by decide)

/-- C10: in the iterative form, whenever the partition loop runs on a range
with `left ≤ right` lying inside the array (`right < len(arr)`), the safety
check `if point >= len(arr): break` never fires — the kept prefix is the
whole point list — at least one point is appended (the list is non-empty,
so the binary-search fallback is unreachable), and every computed point
satisfies `point ≤ right < len(arr)`. -/
theorem spec_c10_guard_dead (arr : List Int) (left right : Int)
    (hlr : left ≤ right) (hlen : right < (arr.length : Int)) :
    iterPoints arr left right = stepPoints left right ∧
      iterPoints arr left right ≠ [] ∧
      ∀ p ∈ iterPoints arr left right, p ≤ right := by
  have he := iterPoints_eq_stepPoints hlr hlen
  refine ⟨he, ?_, fun p hp => (iterPoints_bounds hlr p hp).2⟩
  rw [he]
  exact stepPoints_ne_nil left right

/-- C10 witness on `arr = [5,6,7]` and the initial range `(0, 2)`. -/
theorem spec_c10_witness :
    iterPoints [5, 6, 7] 0 2 = stepPoints 0 2 ∧
      iterPoints [5, 6, 7] 0 2 ≠ [] ∧
      ∀ p ∈ iterPoints [5, 6, 7] 0 2, p ≤ 2 :=
  spec_c10_guard_dead [5, 6, 7] 0 2 (by decide) (by decide)

/-- C1 witness on `arr = [1,2,3]`, `target = 2`. -/
theorem spec_c1_witness :
    ∃ i : Nat, i < ([1, 2, 3] : List Int).length ∧
      ([1, 2, 3] : List Int)[i]? = some 2 ∧
      dynamic_multi_way_search [1, 2, 3] 2 = some (i : Int) ∧
      dynamic_multi_way_search_iterative [1, 2, 3] 2 = some (i : Int) ∧
      (([1, 2, 3] : List Int).Nodup → ∀ j : Nat,
        j < ([1, 2, 3] : List Int).length →
        ([1, 2, 3] : List Int)[j]? = some 2 → j = i) :=
  spec_c1_present_found [1, 2, 3] 2 (by decide) (by decide)

/-- C2 witness on `arr = [1,2,3]`, `target = 5`. -/
theorem spec_c2_witness :
    dynamic_multi_way_search [1, 2, 3] 5 = some (-1) ∧
      dynamic_multi_way_search_iterative [1, 2, 3] 5 = some (-1) :=
  spec_c2_absent_notfound [1, 2, 3] 5 (by decide) (by decide)
